import Mathlib

set_option maxHeartbeats 1000000
set_option maxRecDepth 40000

/-
Verification of the repository ingestion and context-assembly pipeline of
the LLMRepo backend (src/backend/main.py), as a shallow embedding.

The embedding mirrors the Python helpers one-to-one:
  force_delete_directory, clone_repository, get_file_content,
  get_repo_structure, process_code_for_llm.
Filesystem effects are made explicit: the state of the destination
directory is a record carrying an oracle that says what each successive
shutil.rmtree attempt does, and a workspace is a finite directory tree.
-/

namespace LLMRepo

/-- Outcome of one `shutil.rmtree(dir_path, onerror=onerror)` attempt.
`raised` is true when an exception escaped the call (for example the
os.chmod inside the onerror handler raised, which is the only way an
exception can escape, since the onerror handler itself swallows errors);
`existsAfter` records whether dir_path still exists once the attempt
returns or aborts. -/
structure RmtreeResult where
  raised : Bool
  existsAfter : Bool

/-- The state of the single path handed to force_delete_directory:
whether it currently exists, the environment oracle giving the outcome of
each successive rmtree attempt, and how many attempts happened so far. -/
structure DirWorld where
  dirExists : Bool
  env : Nat → RmtreeResult
  calls : Nat

/-- Effect of one `shutil.rmtree(dir_path, onerror=onerror)` call: consume
the next oracle entry and update existence accordingly. -/
def rmtreeStep (w : DirWorld) : RmtreeResult × DirWorld :=
  let r := w.env w.calls
  (r, { w with calls := w.calls + 1, dirExists := r.existsAfter })

/-- The retry loop of force_delete_directory
(`for attempt in range(max_retries)`), returning `some result` when a
`return` statement inside the loop fires and `none` when the loop runs out
of attempts.  One iteration: if the path exists, run rmtree; if an
exception escaped, it is caught (`except PermissionError` /
`except Exception`), the code sleeps and retries; if no exception escaped
and the path is gone, return True; if the path is somehow still there, the
code prints a warning and falls through to the next attempt. -/
def forceDeleteLoop : Nat → DirWorld → Option Bool × DirWorld
  | 0, w => (none, w)
  | Nat.succ n, w =>
    if w.dirExists then
      let p := rmtreeStep w
      if p.1.raised then forceDeleteLoop n p.2
      else if p.2.dirExists then forceDeleteLoop n p.2
      else (some true, p.2)
    else forceDeleteLoop n w

/-- `force_delete_directory(dir_path, max_retries=3, delay=0.5)`: run the
retry loop; if it never returned, re-check existence: still present means
failure (False), absent means success (True).  The 0.5 second sleeps are
irrelevant to the result and are not modelled. -/
def force_delete_directory (w : DirWorld) (max_retries : Nat) : Bool × DirWorld :=
  match forceDeleteLoop max_retries w with
  | (some b, w') => (b, w')
  | (none, w') => if w'.dirExists then (false, w') else (true, w')

theorem forceDeleteLoop_some_spec (n : Nat) (w : DirWorld) (b : Bool) (w' : DirWorld)
    (h : forceDeleteLoop n w = (some b, w')) : b = true ∧ w'.dirExists = false := by
  induction n generalizing w with
  | zero => simp [forceDeleteLoop] at h
  | succ n ih =>
    rw [forceDeleteLoop] at h
    by_cases hex : w.dirExists
    · simp only [hex, if_true] at h
      by_cases hr : (rmtreeStep w).1.raised
      · simp only [hr, if_true] at h
        exact ih _ h
      · simp only [hr, if_false] at h
        by_cases he : (rmtreeStep w).2.dirExists
        · simp only [he, if_true] at h
          exact ih _ h
        · simp only [he, if_false] at h
          rw [Prod.mk.injEq] at h
          obtain ⟨hb, hw⟩ := h
          injection hb with hb
          subst hb
          subst hw
          exact ⟨rfl, by simpa using he⟩
    · simp only [hex, if_false] at h
      exact ih _ h

theorem forceDeleteLoop_absent (n : Nat) (w : DirWorld)
    (h : w.dirExists = false) : forceDeleteLoop n w = (none, w) := by
  induction n with
  | zero => rfl
  | succ n ih => rw [forceDeleteLoop, h]; simpa using ih

theorem force_delete_spec (w : DirWorld) (n : Nat) :
    (force_delete_directory w n).1 = true ↔
      (force_delete_directory w n).2.dirExists = false := by
  unfold force_delete_directory
  rcases hl : forceDeleteLoop n w with ⟨ob, w'⟩
  cases ob with
  | none =>
    by_cases hex : w'.dirExists
    · simp [hex]
    · simp [hex]
  | some b =>
    have := forceDeleteLoop_some_spec n w b w' hl
    simp [this.1, this.2]

/-- C10: force_delete_directory is total over every environment of rmtree
outcomes (every exception raised during an attempt is caught by the
`except PermissionError` and `except Exception` clauses), and it returns
True exactly when the directory no longer exists at the moment it
returns. -/
theorem C10_force_delete_total (w : DirWorld) (n : Nat) :
    (force_delete_directory w n).1 = true ↔
      (force_delete_directory w n).2.dirExists = false :=
  force_delete_spec w n

/-- C7: force_delete_directory on a non-existent path returns success, and
calling it twice in succession on the same already-deleted path returns
success both times (with the default max_retries of 3). -/
theorem C7_reclaim_idempotent (w : DirWorld) (h : w.dirExists = false) :
    (force_delete_directory w 3).1 = true ∧
      (force_delete_directory (force_delete_directory w 3).2 3).1 = true := by
  have h1 : force_delete_directory w 3 = (true, w) := by
    unfold force_delete_directory
    rw [forceDeleteLoop_absent 3 w h]
    simp [h]
  simp [h1]

theorem C7_reclaim_idempotent_witness :
    ({ dirExists := false, env := fun _ => ⟨false, false⟩, calls := 0 } : DirWorld).dirExists
        = false ∧
      (force_delete_directory
          { dirExists := false, env := fun _ => ⟨false, false⟩, calls := 0 } 3).1 = true ∧
      (force_delete_directory
          (force_delete_directory
            { dirExists := false, env := fun _ => ⟨false, false⟩, calls := 0 } 3).2 3).1
        = true :=
  ⟨rfl, C7_reclaim_idempotent _ rfl⟩

/-- One decoded unit of a file opened with encoding utf-8: either a
character that decodes, or a byte sequence that does not decode.  Opening
with errors=ignore drops the undecodable units instead of raising. -/
inductive ByteUnit
  | valid (c : Char)
  | invalid
deriving DecidableEq

/-- The text produced by reading a file with errors=ignore: the valid
units in order, with the invalid units dropped. -/
def decodeIgnore (bs : List ByteUnit) : String :=
  String.mk (bs.filterMap fun b => match b with | .valid c => some c | .invalid => none)

/-- A node of the workspace directory tree.  `readable = false` on a file
models an open() call that raises (for example a permission error); the
surrounding `except` clause of get_file_content turns that into None. -/
inductive FSEntry
  | file (bytes : List ByteUnit) (readable : Bool)
  | dir (children : List (String × FSEntry))

/-- Splitting a character list at the slash character: the components of a
slash-separated relative path. -/
def splitChars : List Char → List (List Char)
  | [] => [[]]
  | c :: rest =>
    if c = '/' then [] :: splitChars rest
    else
      match splitChars rest with
      | [] => [[c]]
      | g :: gs => (c :: g) :: gs

/-- The components of a slash-separated path. -/
def splitPath (s : String) : List String := (splitChars s.toList).map String.mk

/-- Looking a name up in a directory listing (the first entry with that
name; on a real filesystem names are unique). -/
def childLookup (children : List (String × FSEntry)) (name : String) : Option FSEntry :=
  match children.find? (fun pr => pr.1 == name) with
  | some pr => some pr.2
  | none => none

/-- Resolving a relative path, component by component, under a node. -/
def resolvePath : FSEntry → List String → Option FSEntry
  | e, [] => some e
  | FSEntry.file _ _, _ :: _ => none
  | FSEntry.dir ch, n :: rest =>
    match childLookup ch n with
    | some e => resolvePath e rest
    | none => none

/-- Resolving `os.path.join(repo_dir, file_path)`: nothing resolves under
a missing workspace root. -/
def resolveOpt : Option FSEntry → List String → Option FSEntry
  | none, _ => none
  | some e, segs => resolvePath e segs

/-- `get_file_content(repo_dir, file_path)`: None when the joined path
does not exist or is not a regular file; otherwise the file is read with
encoding utf-8 and errors=ignore, and any exception during the read
(modelled by `readable = false`) is caught and turned into None. -/
def get_file_content (repo_dir : Option FSEntry) (file_path : String) : Option String :=
  match resolveOpt repo_dir (splitPath file_path) with
  | some (FSEntry.file bs readable) => if readable then some (decodeIgnore bs) else none
  | some (FSEntry.dir _) => none
  | none => none

/-- A workspace holding a subdirectory, and a readable file whose bytes
contain an undecodable unit. -/
def wsC2 : FSEntry :=
  FSEntry.dir [("d", FSEntry.dir []),
    ("bad.bin", FSEntry.file [ByteUnit.valid 'a', ByteUnit.invalid] true)]

/-- C2 counterexample: a readable file containing invalid encoding bytes
does not make get_file_content return None: the file is opened with
errors=ignore, so the undecodable bytes are dropped and the remaining
text is returned. -/
theorem C2_counterexample :
    get_file_content (some wsC2) "bad.bin" = some "a" ∧
      get_file_content (some wsC2) "bad.bin" ≠ none := by
  constructor
  · decide
  · decide

/-- C2 amended: get_file_content never raises, and returns None when the
resolved path does not exist and when the resolved path is a directory;
for a readable file whose bytes contain invalid encoding units it does
not return None: it returns the text decoded with the undecodable units
dropped (errors=ignore). -/
theorem C2_amended (repo : Option FSEntry) (p : String) :
    (resolveOpt repo (splitPath p) = none → get_file_content repo p = none) ∧
    (∀ ch, resolveOpt repo (splitPath p) = some (FSEntry.dir ch) →
      get_file_content repo p = none) ∧
    (∀ bs, resolveOpt repo (splitPath p) = some (FSEntry.file bs true) →
      ByteUnit.invalid ∈ bs →
      get_file_content repo p ≠ none ∧ get_file_content repo p = some (decodeIgnore bs)) := by
  refine ⟨?_, ?_, ?_⟩
  · intro h
    unfold get_file_content
    rw [h]
  · intro ch h
    unfold get_file_content
    rw [h]
  · intro bs h _
    unfold get_file_content
    rw [h]
    simp

theorem C2_amended_witness :
    (get_file_content (some wsC2) "missing.txt" = none) ∧
      (get_file_content (some wsC2) "d" = none) ∧
      (get_file_content (some wsC2) "bad.bin" ≠ none ∧
        get_file_content (some wsC2) "bad.bin"
          = some (decodeIgnore [ByteUnit.valid 'a', ByteUnit.invalid])) :=
  ⟨(C2_amended (some wsC2) "missing.txt").1 (by rfl),
    (C2_amended (some wsC2) "d").2.1 [] (by rfl),
    (C2_amended (some wsC2) "bad.bin").2.2 [ByteUnit.valid 'a', ByteUnit.invalid]
      (by rfl) (by decide)⟩

/-- The descriptor stored in the structure dict:
`{"type": "file", "path": file_path}`. -/
structure FileInfo where
  type_ : String
  path : String
deriving DecidableEq

/-- The structure dict, in Python insertion order. -/
abbrev StructDict := List (String × FileInfo)

/-- Python dict assignment `d[k] = v`: replace in place when the key is
already present, append otherwise. -/
def insertKV : StructDict → String → FileInfo → StructDict
  | [], k, v => [(k, v)]
  | (k', v') :: rest, k, v =>
    if k' = k then (k, v) :: rest else (k', v') :: insertKV rest k v

/-- `os.path.join(rel_path, file)`, where rel_path is "" at the root. -/
def pathJoin (rel name : String) : String :=
  if rel = "" then name else rel ++ "/" ++ name

/-- `.replace("\\", "/")`: for a one-character pattern and replacement
this is a character map. -/
def normSlash (s : String) : String :=
  String.mk (s.toList.map fun c => if c = '\\' then '/' else c)

def isDirE : FSEntry → Bool
  | FSEntry.dir _ => true
  | FSEntry.file _ _ => false

/-- Adding the files of one os.walk level to the dict:
`structure[file_path] = {"type": "file", "path": file_path}` over the
regular files of the directory, in listing order, with
`file_path = os.path.join(rel_path, file).replace("\\", "/")`. -/
def addLevelFiles (rel : String) : List (String × FSEntry) → StructDict → StructDict
  | [], acc => acc
  | (name, e) :: rest, acc =>
    match e with
    | FSEntry.dir _ => addLevelFiles rel rest acc
    | FSEntry.file _ _ =>
      addLevelFiles rel rest
        (insertKV acc (normSlash (pathJoin rel name))
          ⟨"file", normSlash (pathJoin rel name)⟩)

mutual
/-- One os.walk level rooted at relative path `rel`: record the files of
the level, then descend into the subdirectories in listing order.
`if ".git" in dirs: dirs.remove(".git")` drops the first subdirectory
named ".git" before the descent. -/
def walkEntry (rel : String) (acc : StructDict) : FSEntry → StructDict
  | FSEntry.file _ _ => acc
  | FSEntry.dir children => walkDirs rel (addLevelFiles rel children acc) true children
/-- The descent of os.walk into the subdirectories of one level; the
`canSkip` flag says whether the single `dirs.remove(".git")` removal is
still pending. -/
def walkDirs (rel : String) (acc : StructDict) (canSkip : Bool) :
    List (String × FSEntry) → StructDict
  | [] => acc
  | (name, e) :: rest =>
    if isDirE e then
      if canSkip = true ∧ name = ".git" then walkDirs rel acc false rest
      else walkDirs rel (walkEntry (pathJoin rel name) acc e) canSkip rest
    else walkDirs rel acc canSkip rest
end

/-- `get_repo_structure(repo_dir)`: empty when repo_dir is not a
directory; otherwise an os.walk from the root (whose relative path "."
is replaced by ""), excluding the ".git" directory at every level. -/
def get_repo_structure (repo_dir : Option FSEntry) : StructDict :=
  match repo_dir with
  | some (FSEntry.dir children) => walkEntry "" [] (FSEntry.dir children)
  | _ => []

/-- A workspace whose root holds a regular file named ".git" (for
example, a git worktree uses a file of that name). -/
def wsGitFile : FSEntry := FSEntry.dir [(".git", FSEntry.file [] true)]

/-- C3 counterexample: only subdirectories named ".git" are pruned by the
walk; a regular file named ".git" is indexed, so its key has a path
component equal to ".git". -/
theorem C3_counterexample :
    (get_repo_structure (some wsGitFile)).map Prod.fst = [".git"] ∧
      splitPath ".git" = [".git"] := by
  constructor
  · simp [get_repo_structure, wsGitFile, walkEntry, walkDirs, addLevelFiles]
    decide
  · decide

theorem strToList_append (a b : String) : (a ++ b).toList = a.toList ++ b.toList := by
  cases a; cases b; rfl

theorem strMk_toList (s : String) : String.mk s.toList = s := by cases s; rfl

theorem splitChars_ne_nil (l : List Char) : splitChars l ≠ [] := by
  cases l with
  | nil => simp [splitChars]
  | cons c rest =>
    simp only [splitChars]
    by_cases h : c = '/'
    · simp [h]
    · simp only [h, if_false]
      cases hr : splitChars rest <;> simp

theorem splitChars_append (xs ys : List Char) :
    splitChars (xs ++ '/' :: ys) = splitChars xs ++ splitChars ys := by
  induction xs with
  | nil => simp [splitChars]
  | cons c rest ih =>
    by_cases h : c = '/'
    · simp only [List.cons_append, splitChars, h, if_true]
      have ih2 : splitChars (rest.append ('/' :: ys)) = splitChars rest ++ splitChars ys := ih
      rw [ih2]
    · simp only [List.cons_append, splitChars, h, if_false]
      have ih2 : splitChars (rest.append ('/' :: ys)) = splitChars rest ++ splitChars ys := ih
      rw [ih2]
      cases hr : splitChars rest with
      | nil => exact absurd hr (splitChars_ne_nil rest)
      | cons g gs => simp

theorem splitChars_noSlash (l : List Char) (h : ∀ c ∈ l, c ≠ '/') :
    splitChars l = [l] := by
  induction l with
  | nil => rfl
  | cons c rest ih =>
    have hc : c ≠ '/' := h c (by simp)
    simp only [splitChars, hc, if_false]
    rw [ih (fun c2 hc2 => h c2 (by simp [hc2]))]

theorem splitPath_noSlash (s : String) (h : ∀ c ∈ s.toList, c ≠ '/') :
    splitPath s = [s] := by
  unfold splitPath
  rw [splitChars_noSlash s.toList h]
  simp [strMk_toList]

theorem splitPath_append_name (rel name : String)
    (h : ∀ c ∈ name.toList, c ≠ '/') :
    splitPath (rel ++ "/" ++ name) = splitPath rel ++ [name] := by
  have h1 : (rel ++ "/" ++ name).toList = rel.toList ++ '/' :: name.toList := by
    rw [strToList_append, strToList_append, List.append_assoc]
    rfl
  unfold splitPath
  rw [h1, splitChars_append, splitChars_noSlash name.toList h, List.map_append]
  simp [strMk_toList]

theorem splitPath_pathJoin (rel name : String)
    (h : ∀ c ∈ name.toList, c ≠ '/') :
    splitPath (pathJoin rel name)
      = (if rel = "" then [] else splitPath rel) ++ [name] := by
  unfold pathJoin
  by_cases hrel : rel = ""
  · simp [hrel, splitPath_noSlash name h]
  · simp [hrel, splitPath_append_name rel name h]

theorem normSlash_eq_self (s : String) (h : ∀ c ∈ s.toList, c ≠ '\\') :
    normSlash s = s := by
  unfold normSlash
  have key : ∀ l : List Char, (∀ c ∈ l, c ≠ '\\') →
      l.map (fun c => if c = '\\' then '/' else c) = l := by
    intro l hl
    induction l with
    | nil => rfl
    | cons c rest ih =>
      simp only [List.map_cons, hl c (by simp), if_false, List.cons.injEq, true_and]
      exact ih (fun c2 hc2 => hl c2 (by simp [hc2]))
  rw [key s.toList h, strMk_toList]

theorem pathJoin_toList_mem (rel name : String) (c : Char)
    (hc : c ∈ (pathJoin rel name).toList) :
    c ∈ rel.toList ∨ c = '/' ∨ c ∈ name.toList := by
  unfold pathJoin at hc
  by_cases hrel : rel = ""
  · simp [hrel] at hc
    tauto
  · simp only [hrel, if_false, strToList_append] at hc
    rcases List.mem_append.mp hc with h | h
    · rcases List.mem_append.mp h with h2 | h2
      · tauto
      · right; left
        simpa using h2
    · tauto

theorem mem_keys_insertKV (d : StructDict) (k : String) (v : FileInfo) (a : String) :
    a ∈ (insertKV d k v).map Prod.fst ↔ a ∈ d.map Prod.fst ∨ a = k := by
  induction d with
  | nil => simp [insertKV]
  | cons pr rest ih =>
    obtain ⟨k', v'⟩ := pr
    by_cases h : k' = k
    · simp only [insertKV, h, if_true, List.map_cons, List.mem_cons]
      tauto
    · simp only [insertKV, h, if_false, List.map_cons, List.mem_cons, ih]
      tauto

theorem nodup_keys_insertKV (d : StructDict) (k : String) (v : FileInfo)
    (h : (d.map Prod.fst).Nodup) : ((insertKV d k v).map Prod.fst).Nodup := by
  induction d with
  | nil => simp [insertKV]
  | cons pr rest ih =>
    obtain ⟨k', v'⟩ := pr
    simp only [List.map_cons, List.nodup_cons] at h
    by_cases hk : k' = k
    · simp only [insertKV, hk, if_true, List.map_cons, List.nodup_cons]
      exact ⟨hk ▸ h.1, h.2⟩
    · simp only [insertKV, hk, if_false, List.map_cons, List.nodup_cons,
        mem_keys_insertKV]
      refine ⟨?_, ih h.2⟩
      rintro (hc | hc)
      · exact h.1 hc
      · exact hc

theorem mem_keys_addLevelFiles (rel : String) (l : List (String × FSEntry))
    (acc : StructDict) (a : String) :
    a ∈ (addLevelFiles rel l acc).map Prod.fst ↔
      a ∈ acc.map Prod.fst ∨
        ∃ pr ∈ l, isDirE pr.2 = false ∧ a = normSlash (pathJoin rel pr.1) := by
  induction l generalizing acc with
  | nil => simp [addLevelFiles]
  | cons pr rest ih =>
    obtain ⟨name, e⟩ := pr
    cases e with
    | dir ch =>
      simp only [addLevelFiles, ih, List.mem_cons]
      constructor
      · rintro (h | ⟨pr2, hpr2, hd, heq⟩)
        · tauto
        · exact Or.inr ⟨pr2, Or.inr hpr2, hd, heq⟩
      · rintro (h | ⟨pr2, hpr2 | hpr2, hd, heq⟩)
        · tauto
        · rw [hpr2] at hd
          simp [isDirE] at hd
        · exact Or.inr ⟨pr2, hpr2, hd, heq⟩
    | file bs r =>
      simp only [addLevelFiles, ih, mem_keys_insertKV, List.mem_cons]
      constructor
      · rintro ((h | h) | ⟨pr2, hpr2, hd, heq⟩)
        · tauto
        · exact Or.inr ⟨(name, FSEntry.file bs r), Or.inl rfl, rfl, h⟩
        · exact Or.inr ⟨pr2, Or.inr hpr2, hd, heq⟩
      · rintro (h | ⟨pr2, hpr2 | hpr2, hd, heq⟩)
        · tauto
        · rw [hpr2] at heq
          exact Or.inl (Or.inr heq)
        · exact Or.inr ⟨pr2, hpr2, hd, heq⟩

theorem nodup_keys_addLevelFiles (rel : String) (l : List (String × FSEntry))
    (acc : StructDict) (h : (acc.map Prod.fst).Nodup) :
    ((addLevelFiles rel l acc).map Prod.fst).Nodup := by
  induction l generalizing acc with
  | nil => simpa [addLevelFiles] using h
  | cons pr rest ih =>
    obtain ⟨name, e⟩ := pr
    cases e with
    | dir ch => simpa [addLevelFiles] using ih acc h
    | file bs r =>
      simp only [addLevelFiles]
      exact ih _ (nodup_keys_insertKV acc _ _ h)

/-- A well-formed entry name on a real filesystem: nonempty and free of
the path separator; we additionally require no backslash, since the
`.replace("\\", "/")` normalisation would garble such a name. -/
def goodName (n : String) : Bool :=
  n != "" && n.toList.all fun c => c != '/' && c != '\\'

theorem goodName_spec (n : String) (h : goodName n = true) :
    n ≠ "" ∧ ∀ c ∈ n.toList, c ≠ '/' ∧ c ≠ '\\' := by
  simp only [goodName, Bool.and_eq_true, bne_iff_ne, ne_eq, List.all_eq_true] at h
  exact ⟨h.1, fun c hc => h.2 c hc⟩

/-- Well-formed directory trees: in every directory the child names are
distinct and well-formed. -/
inductive WFTree : FSEntry → Prop
  | file (bs : List ByteUnit) (r : Bool) : WFTree (FSEntry.file bs r)
  | dir (children : List (String × FSEntry))
      (hnd : (children.map Prod.fst).Nodup)
      (hnames : ∀ pr ∈ children, goodName pr.1 = true)
      (hsub : ∀ pr ∈ children, WFTree pr.2) :
      WFTree (FSEntry.dir children)

/-- A key of the structure dict as the amended claim describes it: no
non-final path component equal to ".git", every component nonempty, and
no backslash character (a slash-normalised relative path). -/
def GoodKey (k : String) : Prop :=
  (∀ c ∈ (splitPath k).dropLast, c ≠ ".git") ∧
    (∀ c ∈ splitPath k, c ≠ "") ∧ ∀ c ∈ k.toList, c ≠ '\\'

/-- The relative path at which os.walk currently stands: empty at the
root, otherwise made of nonempty components none of which is ".git", with
no backslash character. -/
def goodRel (rel : String) : Prop :=
  (∀ c ∈ rel.toList, c ≠ '\\') ∧
    (rel = "" ∨ ∀ c ∈ splitPath rel, c ≠ "" ∧ c ≠ ".git")

theorem goodRel_root : goodRel "" :=
  ⟨fun c hc => by
      rw [show ("" : String).toList = [] from rfl] at hc
      exact absurd hc (List.not_mem_nil c),
    Or.inl rfl⟩

theorem goodKey_pathJoin (rel name : String) (hrel : goodRel rel)
    (hname : goodName name = true) :
    normSlash (pathJoin rel name) = pathJoin rel name ∧ GoodKey (pathJoin rel name) := by
  obtain ⟨hne, hchars⟩ := goodName_spec name hname
  have hnoslash : ∀ c ∈ name.toList, c ≠ '/' := fun c hc => (hchars c hc).1
  have hnb : ∀ c ∈ (pathJoin rel name).toList, c ≠ '\\' := by
    intro c hc
    rcases pathJoin_toList_mem rel name c hc with h | h | h
    · exact hrel.1 c h
    · rw [h]; decide
    · exact (hchars c h).2
  refine ⟨normSlash_eq_self _ hnb, ?_, ?_, hnb⟩
  · rw [splitPath_pathJoin rel name hnoslash]
    by_cases hr : rel = ""
    · simp [hr]
    · simp only [hr, if_false]
      rw [List.dropLast_concat]
      intro c hc
      rcases hrel.2 with h0 | h0
      · exact absurd h0 hr
      · exact (h0 c hc).2
  · rw [splitPath_pathJoin rel name hnoslash]
    intro c hc
    rcases List.mem_append.mp hc with h | h
    · by_cases hr : rel = ""
      · simp [hr] at h
      · simp only [hr, if_false] at h
        rcases hrel.2 with h0 | h0
        · exact absurd h0 hr
        · exact (h0 c h).1
    · simp only [List.mem_singleton] at h
      rw [h]; exact hne

theorem goodRel_pathJoin (rel name : String) (hrel : goodRel rel)
    (hname : goodName name = true) (hng : name ≠ ".git") :
    goodRel (pathJoin rel name) := by
  obtain ⟨hne, hchars⟩ := goodName_spec name hname
  have hnoslash : ∀ c ∈ name.toList, c ≠ '/' := fun c hc => (hchars c hc).1
  refine ⟨?_, Or.inr ?_⟩
  · intro c hc
    rcases pathJoin_toList_mem rel name c hc with h | h | h
    · exact hrel.1 c h
    · rw [h]; decide
    · exact (hchars c h).2
  · rw [splitPath_pathJoin rel name hnoslash]
    intro c hc
    rcases List.mem_append.mp hc with h | h
    · by_cases hr : rel = ""
      · simp [hr] at h
      · simp only [hr, if_false] at h
        rcases hrel.2 with h0 | h0
        · exact absurd h0 hr
        · exact h0 c h
    · simp only [List.mem_singleton] at h
      rw [h]; exact ⟨hne, hng⟩

theorem addLevelFiles_goodKeys (rel : String) (l : List (String × FSEntry))
    (acc : StructDict) (hrel : goodRel rel)
    (hnames : ∀ pr ∈ l, goodName pr.1 = true)
    (hacc : ∀ k ∈ acc.map Prod.fst, GoodKey k) :
    ∀ k ∈ (addLevelFiles rel l acc).map Prod.fst, GoodKey k := by
  intro k hk
  rcases (mem_keys_addLevelFiles rel l acc k).1 hk with h | ⟨pr, hpr, _, heq⟩
  · exact hacc k h
  · have hgk := goodKey_pathJoin rel pr.1 hrel (hnames pr hpr)
    rw [heq, hgk.1]
    exact hgk.2

mutual
theorem walkEntry_goodKeys (rel : String) (acc : StructDict) :
    ∀ (e : FSEntry), goodRel rel → WFTree e →
      (∀ k ∈ acc.map Prod.fst, GoodKey k) →
      ∀ k ∈ (walkEntry rel acc e).map Prod.fst, GoodKey k
  | FSEntry.file bs r, _, _, hacc => by simpa [walkEntry] using hacc
  | FSEntry.dir children, hrel, hwf, hacc => by
    cases hwf with
    | dir _ hnd hnames hsub =>
      rw [show walkEntry rel acc (FSEntry.dir children)
            = walkDirs rel (addLevelFiles rel children acc) true children from by
          simp [walkEntry]]
      exact walkDirs_goodKeys rel _ true children hrel hnames hsub hnd (Or.inl rfl)
        (addLevelFiles_goodKeys rel children acc hrel hnames hacc)
termination_by e _ _ _ => sizeOf e

theorem walkDirs_goodKeys (rel : String) (acc : StructDict) (canSkip : Bool) :
    ∀ (l : List (String × FSEntry)), goodRel rel →
      (∀ pr ∈ l, goodName pr.1 = true) →
      (∀ pr ∈ l, WFTree pr.2) →
      (l.map Prod.fst).Nodup →
      (canSkip = true ∨ ".git" ∉ l.map Prod.fst) →
      (∀ k ∈ acc.map Prod.fst, GoodKey k) →
      ∀ k ∈ (walkDirs rel acc canSkip l).map Prod.fst, GoodKey k
  | [], _, _, _, _, _, hacc => by simpa [walkDirs] using hacc
  | (name, e) :: rest, hrel, hnames, hsub, hnd, hskip, hacc => by
    have hndtail : (rest.map Prod.fst).Nodup := by
      simp only [List.map_cons, List.nodup_cons] at hnd
      exact hnd.2
    have hnamehead : goodName name = true := hnames (name, e) (by simp)
    have hnamestail : ∀ pr2 ∈ rest, goodName pr2.1 = true :=
      fun pr2 hpr2 => hnames pr2 (by simp [hpr2])
    have hsubtail : ∀ pr2 ∈ rest, WFTree pr2.2 :=
      fun pr2 hpr2 => hsub pr2 (by simp [hpr2])
    by_cases hd : isDirE e = true
    · by_cases hs : canSkip = true ∧ name = ".git"
      · rw [show walkDirs rel acc canSkip ((name, e) :: rest)
              = walkDirs rel acc false rest from by simp [walkDirs, hd, hs]]
        refine walkDirs_goodKeys rel acc false rest hrel hnamestail hsubtail hndtail
          (Or.inr ?_) hacc
        have hmem : name ∉ rest.map Prod.fst := by
          simp only [List.map_cons, List.nodup_cons] at hnd
          exact hnd.1
        rw [← hs.2]
        exact hmem
      · rw [show walkDirs rel acc canSkip ((name, e) :: rest)
              = walkDirs rel (walkEntry (pathJoin rel name) acc e) canSkip rest from by
            simp [walkDirs, hd, hs]]
        have hng : name ≠ ".git" := by
          rcases hskip with hc | hc
          · intro hn; exact hs ⟨hc, hn⟩
          · intro hn
            exact hc (by simp [← hn])
        have hskiptail : canSkip = true ∨ ".git" ∉ rest.map Prod.fst := by
          rcases hskip with hc | hc
          · exact Or.inl hc
          · exact Or.inr fun hmem => hc (by simp [hmem])
        exact walkDirs_goodKeys rel _ canSkip rest hrel hnamestail hsubtail hndtail
          hskiptail
          (walkEntry_goodKeys (pathJoin rel name) acc e
            (goodRel_pathJoin rel name hrel hnamehead hng)
            (hsub (name, e) (by simp)) hacc)
    · rw [show walkDirs rel acc canSkip ((name, e) :: rest)
            = walkDirs rel acc canSkip rest from by simp [walkDirs, hd]]
      refine walkDirs_goodKeys rel acc canSkip rest hrel hnamestail hsubtail hndtail
        ?_ hacc
      rcases hskip with hc | hc
      · exact Or.inl hc
      · exact Or.inr fun hmem => hc (by simp [hmem])
termination_by l _ _ _ _ _ _ => sizeOf l
end

mutual
theorem walkEntry_nodupKeys (rel : String) (acc : StructDict) :
    ∀ (e : FSEntry), (acc.map Prod.fst).Nodup →
      ((walkEntry rel acc e).map Prod.fst).Nodup
  | FSEntry.file bs r, h => by simpa [walkEntry] using h
  | FSEntry.dir children, h => by
    rw [show walkEntry rel acc (FSEntry.dir children)
          = walkDirs rel (addLevelFiles rel children acc) true children from by
        simp [walkEntry]]
    exact walkDirs_nodupKeys rel _ true children
      (nodup_keys_addLevelFiles rel children acc h)
termination_by e _ => sizeOf e

theorem walkDirs_nodupKeys (rel : String) (acc : StructDict) (canSkip : Bool) :
    ∀ (l : List (String × FSEntry)), (acc.map Prod.fst).Nodup →
      ((walkDirs rel acc canSkip l).map Prod.fst).Nodup
  | [], h => by simpa [walkDirs] using h
  | (name, e) :: rest, h => by
    by_cases hd : isDirE e = true
    · by_cases hs : canSkip = true ∧ name = ".git"
      · rw [show walkDirs rel acc canSkip ((name, e) :: rest)
              = walkDirs rel acc false rest from by simp [walkDirs, hd, hs]]
        exact walkDirs_nodupKeys rel acc false rest h
      · rw [show walkDirs rel acc canSkip ((name, e) :: rest)
              = walkDirs rel (walkEntry (pathJoin rel name) acc e) canSkip rest from by
            simp [walkDirs, hd, hs]]
        exact walkDirs_nodupKeys rel _ canSkip rest
          (walkEntry_nodupKeys (pathJoin rel name) acc e h)
    · rw [show walkDirs rel acc canSkip ((name, e) :: rest)
            = walkDirs rel acc canSkip rest from by simp [walkDirs, hd]]
      exact walkDirs_nodupKeys rel acc canSkip rest h
termination_by l _ => sizeOf l
end

/-- C3 amended: for a well-formed workspace tree (distinct child names
per directory, names nonempty and free of slash and backslash), the index
has pairwise-distinct keys, every key is a slash-normalised relative path
none of whose non-final components is ".git" (a regular file named ".git"
may itself appear as a key, since only directories are pruned), and a
missing workspace root yields an empty index without an error. -/
theorem C3_amended (e : FSEntry) (hwf : WFTree e) :
    ((get_repo_structure (some e)).map Prod.fst).Nodup ∧
      (∀ k ∈ (get_repo_structure (some e)).map Prod.fst, GoodKey k) ∧
      get_repo_structure none = [] := by
  refine ⟨?_, ?_, rfl⟩
  · cases e with
    | file bs r => simp [get_repo_structure]
    | dir children =>
      exact walkEntry_nodupKeys "" [] (FSEntry.dir children) (by simp)
  · cases e with
    | file bs r => simp [get_repo_structure]
    | dir children =>
      exact walkEntry_goodKeys "" [] (FSEntry.dir children) goodRel_root hwf (by simp)

/-- A small well-formed workspace: a README, a ".git" metadata directory,
and a source subdirectory. -/
def wsC3 : FSEntry :=
  FSEntry.dir [("README.md", FSEntry.file [] true),
    (".git", FSEntry.dir [("HEAD", FSEntry.file [] true)]),
    ("src", FSEntry.dir [("app.py", FSEntry.file [] true)])]

theorem wsC3_wf : WFTree wsC3 := by
  refine WFTree.dir _ (by decide) ?_ ?_
  · intro pr hpr
    fin_cases hpr <;> decide
  · intro pr hpr
    fin_cases hpr
    · exact WFTree.file [] true
    · refine WFTree.dir _ (by decide) ?_ ?_
      · intro pr2 hpr2
        fin_cases hpr2
        decide
      · intro pr2 hpr2
        fin_cases hpr2
        exact WFTree.file [] true
    · refine WFTree.dir _ (by decide) ?_ ?_
      · intro pr2 hpr2
        fin_cases hpr2
        decide
      · intro pr2 hpr2
        fin_cases hpr2
        exact WFTree.file [] true

theorem C3_amended_witness :
    ((get_repo_structure (some wsC3)).map Prod.fst).Nodup ∧
      (∀ k ∈ (get_repo_structure (some wsC3)).map Prod.fst, GoodKey k) ∧
      get_repo_structure none = [] :=
  C3_amended wsC3 wsC3_wf

/-- Python slicing `s[:n]`: the first n characters. -/
def strTake (s : String) (n : Nat) : String := String.mk (s.toList.take n)

/-- Whether the first list is a leading segment of the second. -/
def hasPre : List Char → List Char → Bool
  | [], _ => true
  | _ :: _, [] => false
  | p :: ps, c :: cs => p == c && hasPre ps cs

/-- Whether the first list occurs contiguously inside the second. -/
def hasSub : List Char → List Char → Bool
  | pat, [] => hasPre pat []
  | pat, c :: cs => hasPre pat (c :: cs) || hasSub pat cs

/-- The Python `in` operator on strings: `pat in s`. -/
def strContains (s pat : String) : Bool := hasSub pat.toList s.toList

/-- Python `str.endswith`. -/
def strEndsWith (s post : String) : Bool :=
  hasPre post.toList.reverse s.toList.reverse

/-- Python `str.lower` (ASCII case folding suffices for the extension
comparison). -/
def strLower (s : String) : String := String.mk (s.toList.map Char.toLower)

/-- File bytes that decode cleanly to the given text. -/
def strBytes (s : String) : List ByteUnit := s.toList.map ByteUnit.valid

/-- One labelled section of the assembled context string. -/
inductive Sect
  | fileContent (path excerpt : String)
  | fileUnreadable (path : String)
  | structureListing (paths : List String)
deriving DecidableEq

/-- Python `files_processed.add(p)` on the set modelled as a duplicate-free
list in insertion order. -/
def addProc (l : List String) (p : String) : List String :=
  if p ∈ l then l else l ++ [p]

/-- Step 1 of process_code_for_llm: for every explicitly requested path
not already processed, append its content section capped at 5000
characters when `if content:` is truthy (readable and nonempty), and an
unreadable placeholder otherwise; only truthy reads mark the path as
processed. -/
def step1Explicit (repo : Option FSEntry) :
    List String → List Sect → List String → List Sect × List String
  | [], secs, processed => (secs, processed)
  | fp :: rest, secs, processed =>
    if fp ∈ processed then step1Explicit repo rest secs processed
    else
      match get_file_content repo fp with
      | some content =>
        if content = "" then
          step1Explicit repo rest (secs ++ [Sect.fileUnreadable fp]) processed
        else
          step1Explicit repo rest (secs ++ [Sect.fileContent fp (strTake content 5000)])
            (addProc processed fp)
      | none => step1Explicit repo rest (secs ++ [Sect.fileUnreadable fp]) processed

def readmeNames : List String := ["README.md", "readme.md", "README", "README.txt"]

/-- The readme loop of step 2: the first candidate not already processed
whose read is not None (even an empty string) is included, capped at 3000
characters, and the loop breaks. -/
def readmeLoop (repo : Option FSEntry) :
    List String → List Sect → List String → List Sect × List String
  | [], secs, processed => (secs, processed)
  | name :: rest, secs, processed =>
    if name ∈ processed then readmeLoop repo rest secs processed
    else
      match get_file_content repo name with
      | some content =>
        (secs ++ [Sect.fileContent name (strTake content 3000)], addProc processed name)
      | none => readmeLoop repo rest secs processed

/-- Step 2: only entered when neither "README.md" nor "readme.md" was
already processed. -/
def step2Readme (repo : Option FSEntry) (st : List Sect × List String) :
    List Sect × List String :=
  if "README.md" ∉ st.2 ∧ "readme.md" ∉ st.2 then
    readmeLoop repo readmeNames st.1 st.2
  else st

def priority_files : List String :=
  ["package.json", "requirements.txt", "pom.xml", "build.gradle", "Cargo.toml",
    "setup.py", "main.py", "index.js", "app.py", "server.js"]

def source_extensions : List String :=
  [".py", ".js", ".ts", ".jsx", ".tsx", ".java", ".c", ".cpp", ".h", ".go",
    ".rs", ".php", ".html", ".css", ".scss", ".vue", ".rb"]

/-- Step 3 collection: the priority files present in the structure and not
yet processed, followed by every structure key, in index order, that is
not yet processed and carries a recognised source extension.  A priority
file that also carries a recognised extension is collected twice. -/
def potentialFiles (structKeys processed : List String) : List String :=
  priority_files.filter
      (fun pf => decide (pf ∈ structKeys) && decide (pf ∉ processed)) ++
    structKeys.filter (fun p =>
      decide (p ∉ processed) &&
        source_extensions.any (fun ext => strEndsWith (strLower p) ext))

/-- The add loop of steps 3 and 4: for each collected path, append a
content section capped at 2500 characters when the read is truthy; the
loop itself never re-checks files_processed. -/
def addFilesLoop (repo : Option FSEntry) :
    List String → List Sect → List String → List Sect × List String
  | [], secs, processed => (secs, processed)
  | fp :: rest, secs, processed =>
    match get_file_content repo fp with
    | some content =>
      if content = "" then addFilesLoop repo rest secs processed
      else
        addFilesLoop repo rest (secs ++ [Sect.fileContent fp (strTake content 2500)])
          (addProc processed fp)
    | none => addFilesLoop repo rest secs processed

/-- process_code_for_llm as the ordered list of labelled sections it
appends to the context string.  The context argument models
`context["files"]` when present and a list; `max_additional_files = 10`;
the flat structure listing (75 paths) is appended only when the index
holds fewer than 200 paths. -/
def process_sections (repo : Option FSEntry) (query : String)
    (context : Option (List String)) : List Sect :=
  let ctxFiles := match context with | some fs => fs | none => []
  let st1 := step1Explicit repo ctxFiles [] []
  let st2 := step2Readme repo st1
  let struct := get_repo_structure repo
  let structKeys := struct.map Prod.fst
  let potential := potentialFiles structKeys st2.2
  let files_to_add := (potential.filter fun f => decide (f ∉ st2.2)).take 10
  let st3 := addFilesLoop repo files_to_add st2.1 st2.2
  if struct.length < 200 then
    st3.1 ++ [Sect.structureListing (structKeys.take 75)]
  else st3.1

/-- The exact text of one section, as appended to context_str. -/
def renderSect : Sect → String
  | Sect.fileContent p ex =>
    "\n--- File: " ++ p ++ " ---\n```\n" ++ ex ++ "\n```\n"
  | Sect.fileUnreadable p =>
    "\n--- File: " ++ p ++ " (Could not be read or found) ---\n"
  | Sect.structureListing paths =>
    "\n--- Repository File Structure (Partial) ---\n"
      ++ String.intercalate "\n" paths
      ++ "\n(... and possibly more files)\n"

/-- `process_code_for_llm(repo_dir, query, context)`: the rendered
context string. -/
def process_code_for_llm (repo : Option FSEntry) (query : String)
    (context : Option (List String)) : String :=
  "Repository Context:\n"
    ++ String.join ((process_sections repo query context).map renderSect)

theorem mem_addProc (l : List String) (p q : String) :
    q ∈ addProc l p ↔ q ∈ l ∨ q = p := by
  unfold addProc
  by_cases h : p ∈ l
  · rw [if_pos h]
    constructor
    · tauto
    · rintro (h2 | h2)
      · exact h2
      · exact h2 ▸ h
  · rw [if_neg h]
    simp

theorem strTake_length (s : String) (n : Nat) : (strTake s n).length ≤ n := by
  show (s.toList.take n).length ≤ n
  rw [List.length_take]
  omega

theorem step1_mono (repo : Option FSEntry) (fs : List String) :
    ∀ (secs : List Sect) (pr : List String) (s : Sect),
      s ∈ secs → s ∈ (step1Explicit repo fs secs pr).1 := by
  induction fs with
  | nil => intro secs pr s h; exact h
  | cons fp rest ih =>
    intro secs pr s h
    simp only [step1Explicit]
    by_cases hmem : fp ∈ pr
    · rw [if_pos hmem]
      exact ih secs pr s h
    · rw [if_neg hmem]
      cases hgc : get_file_content repo fp with
      | some content =>
        by_cases hempty : content = ""
        · simp only [hgc, if_pos hempty]
          exact ih _ pr s (by simp [h])
        · simp only [hgc, if_neg hempty]
          exact ih _ _ s (by simp [h])
      | none =>
        simp only [hgc]
        exact ih _ pr s (by simp [h])

theorem readme_mono (repo : Option FSEntry) (names : List String) :
    ∀ (secs : List Sect) (pr : List String) (s : Sect),
      s ∈ secs → s ∈ (readmeLoop repo names secs pr).1 := by
  induction names with
  | nil => intro secs pr s h; exact h
  | cons name rest ih =>
    intro secs pr s h
    simp only [readmeLoop]
    by_cases hmem : name ∈ pr
    · rw [if_pos hmem]
      exact ih secs pr s h
    · rw [if_neg hmem]
      cases hgc : get_file_content repo name with
      | some content =>
        simp only [hgc]
        simp [h]
      | none =>
        simp only [hgc]
        exact ih secs pr s h

theorem step2_mono (repo : Option FSEntry) (st : List Sect × List String) (s : Sect)
    (h : s ∈ st.1) : s ∈ (step2Readme repo st).1 := by
  unfold step2Readme
  by_cases hgate : "README.md" ∉ st.2 ∧ "readme.md" ∉ st.2
  · rw [if_pos hgate]
    exact readme_mono repo readmeNames st.1 st.2 s h
  · rw [if_neg hgate]
    exact h

theorem addFiles_mono (repo : Option FSEntry) (fl : List String) :
    ∀ (secs : List Sect) (pr : List String) (s : Sect),
      s ∈ secs → s ∈ (addFilesLoop repo fl secs pr).1 := by
  induction fl with
  | nil => intro secs pr s h; exact h
  | cons fp rest ih =>
    intro secs pr s h
    simp only [addFilesLoop]
    cases hgc : get_file_content repo fp with
    | some content =>
      by_cases hempty : content = ""
      · simp only [hgc, if_pos hempty]
        exact ih secs pr s h
      · simp only [hgc, if_neg hempty]
        exact ih _ _ s (by simp [h])
    | none =>
      simp only [hgc]
      exact ih secs pr s h

/-- A workspace holding exactly one readable file main.py, which is both
a priority file and a recognised source file. -/
def wsC1 : FSEntry :=
  FSEntry.dir [("main.py", FSEntry.file (strBytes "print(1)") true)]

/-- C1: the no-duplicate half of the claim fails on the code: a readable
priority file such as main.py is collected by the priority loop and again
by the extension loop, `files_to_add` is filtered against files_processed
once, before any content is added, and the add loop never re-checks the
set, so the very same labelled section is emitted twice.  The bundle for
this one-file workspace repeats the main.py section. -/
theorem C1_duplicate_section :
    process_sections (some wsC1) "q" none =
      [Sect.fileContent "main.py" "print(1)",
       Sect.fileContent "main.py" "print(1)",
       Sect.structureListing ["main.py"]] := by
  have hstruct : get_repo_structure (some wsC1) = [("main.py", ⟨"file", "main.py"⟩)] := by
    simp [get_repo_structure, wsC1, walkEntry, walkDirs, addLevelFiles]
    decide
  simp only [process_sections, hstruct]
  decide

theorem step1Explicit_cap (repo : Option FSEntry) (fs : List String) :
    ∀ (secs : List Sect) (pr : List String) (p e : String),
      Sect.fileContent p e ∈ (step1Explicit repo fs secs pr).1 →
      Sect.fileContent p e ∈ secs ∨ e.length ≤ 5000 := by
  induction fs with
  | nil => intro secs pr p e h; exact Or.inl h
  | cons fp rest ih =>
    intro secs pr p e h
    simp only [step1Explicit] at h
    by_cases hmem : fp ∈ pr
    · rw [if_pos hmem] at h
      exact ih secs pr p e h
    · rw [if_neg hmem] at h
      cases hgc : get_file_content repo fp with
      | some content =>
        by_cases hempty : content = ""
        · simp only [hgc, if_pos hempty] at h
          rcases ih _ pr p e h with hin | hle
          · rcases List.mem_append.mp hin with h2 | h2
            · exact Or.inl h2
            · simp at h2
          · exact Or.inr hle
        · simp only [hgc, if_neg hempty] at h
          rcases ih _ _ p e h with hin | hle
          · rcases List.mem_append.mp hin with h2 | h2
            · exact Or.inl h2
            · simp only [List.mem_singleton, Sect.fileContent.injEq] at h2
              exact Or.inr (h2.2 ▸ strTake_length content 5000)
          · exact Or.inr hle
      | none =>
        simp only [hgc] at h
        rcases ih _ pr p e h with hin | hle
        · rcases List.mem_append.mp hin with h2 | h2
          · exact Or.inl h2
          · simp at h2
        · exact Or.inr hle

theorem readmeLoop_cap (repo : Option FSEntry) (names : List String) :
    ∀ (secs : List Sect) (pr : List String) (p e : String),
      Sect.fileContent p e ∈ (readmeLoop repo names secs pr).1 →
      Sect.fileContent p e ∈ secs ∨ e.length ≤ 3000 := by
  induction names with
  | nil => intro secs pr p e h; exact Or.inl h
  | cons name rest ih =>
    intro secs pr p e h
    simp only [readmeLoop] at h
    by_cases hmem : name ∈ pr
    · rw [if_pos hmem] at h
      exact ih secs pr p e h
    · rw [if_neg hmem] at h
      cases hgc : get_file_content repo name with
      | some content =>
        simp only [hgc] at h
        rcases List.mem_append.mp h with h2 | h2
        · exact Or.inl h2
        · simp only [List.mem_singleton, Sect.fileContent.injEq] at h2
          exact Or.inr (h2.2 ▸ strTake_length content 3000)
      | none =>
        simp only [hgc] at h
        exact ih secs pr p e h

theorem addFilesLoop_cap (repo : Option FSEntry) (fl : List String) :
    ∀ (secs : List Sect) (pr : List String) (p e : String),
      Sect.fileContent p e ∈ (addFilesLoop repo fl secs pr).1 →
      Sect.fileContent p e ∈ secs ∨ e.length ≤ 2500 := by
  induction fl with
  | nil => intro secs pr p e h; exact Or.inl h
  | cons fp rest ih =>
    intro secs pr p e h
    simp only [addFilesLoop] at h
    cases hgc : get_file_content repo fp with
    | some content =>
      by_cases hempty : content = ""
      · simp only [hgc, if_pos hempty] at h
        exact ih secs pr p e h
      · simp only [hgc, if_neg hempty] at h
        rcases ih _ _ p e h with hin | hle
        · rcases List.mem_append.mp hin with h2 | h2
          · exact Or.inl h2
          · simp only [List.mem_singleton, Sect.fileContent.injEq] at h2
            exact Or.inr (h2.2 ▸ strTake_length content 2500)
        · exact Or.inr hle
    | none =>
      simp only [hgc] at h
      exact ih secs pr p e h

/-- C5: every content section appended by the explicit-files step carries
an excerpt of at most 5000 characters, every section newly appended by the
README loop carries at most 3000, and every section newly appended by the
additional-source-files loop (which also serves the priority manifest and
entry-point files) carries at most 2500. -/
theorem C5_excerpt_caps :
    (∀ (repo : Option FSEntry) (fs : List String) (secs : List Sect)
        (pr : List String) (p e : String),
        Sect.fileContent p e ∈ (step1Explicit repo fs secs pr).1 →
        Sect.fileContent p e ∈ secs ∨ e.length ≤ 5000) ∧
      (∀ (repo : Option FSEntry) (names : List String) (secs : List Sect)
        (pr : List String) (p e : String),
        Sect.fileContent p e ∈ (readmeLoop repo names secs pr).1 →
        Sect.fileContent p e ∈ secs ∨ e.length ≤ 3000) ∧
      (∀ (repo : Option FSEntry) (fl : List String) (secs : List Sect)
        (pr : List String) (p e : String),
        Sect.fileContent p e ∈ (addFilesLoop repo fl secs pr).1 →
        Sect.fileContent p e ∈ secs ∨ e.length ≤ 2500) :=
  ⟨fun repo fs secs pr p e h => step1Explicit_cap repo fs secs pr p e h,
    fun repo names secs pr p e h => readmeLoop_cap repo names secs pr p e h,
    fun repo fl secs pr p e h => addFilesLoop_cap repo fl secs pr p e h⟩

/-- A workspace with one source file and a README. -/
def wsC5 : FSEntry :=
  FSEntry.dir [("a.py", FSEntry.file (strBytes "hi") true),
    ("README.md", FSEntry.file (strBytes "doc") true)]

theorem C5_excerpt_caps_witness :
    (Sect.fileContent "a.py" (strTake "hi" 5000) ∈ ([] : List Sect) ∨
        (strTake "hi" 5000).length ≤ 5000) ∧
      (Sect.fileContent "README.md" (strTake "doc" 3000) ∈ ([] : List Sect) ∨
        (strTake "doc" 3000).length ≤ 3000) ∧
      (Sect.fileContent "a.py" (strTake "hi" 2500) ∈ ([] : List Sect) ∨
        (strTake "hi" 2500).length ≤ 2500) :=
  ⟨C5_excerpt_caps.1 (some wsC5) ["a.py"] [] [] "a.py" (strTake "hi" 5000) (by decide),
    C5_excerpt_caps.2.1 (some wsC5) readmeNames [] [] "README.md" (strTake "doc" 3000)
      (by decide),
    C5_excerpt_caps.2.2 (some wsC5) ["a.py"] [] [] "a.py" (strTake "hi" 2500) (by decide)⟩

theorem step1_placeholder (repo : Option FSEntry) (p : String)
    (hp : get_file_content repo p = some "") (fs : List String) :
    ∀ (secs : List Sect) (pr : List String), p ∈ fs → p ∉ pr →
      Sect.fileUnreadable p ∈ (step1Explicit repo fs secs pr).1 := by
  induction fs with
  | nil => intro secs pr h _; simp at h
  | cons fp rest ih =>
    intro secs pr hmemfs hnp
    simp only [step1Explicit]
    by_cases hfp : fp = p
    · subst hfp
      rw [if_neg hnp]
      simp only [hp, if_pos rfl]
      exact step1_mono repo rest _ pr _ (by simp)
    · have hrest : p ∈ rest := by
        rcases List.mem_cons.mp hmemfs with h2 | h2
        · exact absurd h2.symm hfp
        · exact h2
      by_cases hmem : fp ∈ pr
      · rw [if_pos hmem]
        exact ih secs pr hrest hnp
      · rw [if_neg hmem]
        cases hgc : get_file_content repo fp with
        | some content =>
          by_cases hempty : content = ""
          · simp only [hgc, if_pos hempty]
            exact ih _ pr hrest hnp
          · simp only [hgc, if_neg hempty]
            refine ih _ _ hrest ?_
            rw [mem_addProc]
            rintro (h2 | h2)
            · exact hnp h2
            · exact hfp h2.symm
        | none =>
          simp only [hgc]
          exact ih _ pr hrest hnp

theorem step1_no_content (repo : Option FSEntry) (p : String)
    (hp : get_file_content repo p = some "") (fs : List String) :
    ∀ (secs : List Sect) (pr : List String),
      (∀ ex, Sect.fileContent p ex ∉ secs) →
      ∀ ex, Sect.fileContent p ex ∉ (step1Explicit repo fs secs pr).1 := by
  induction fs with
  | nil => intro secs pr h ex; exact h ex
  | cons fp rest ih =>
    intro secs pr hsecs ex
    simp only [step1Explicit]
    by_cases hmem : fp ∈ pr
    · rw [if_pos hmem]
      exact ih secs pr hsecs ex
    · rw [if_neg hmem]
      cases hgc : get_file_content repo fp with
      | some content =>
        by_cases hempty : content = ""
        · simp only [hgc, if_pos hempty]
          refine ih _ pr ?_ ex
          intro ex2 hmem2
          rcases List.mem_append.mp hmem2 with h2 | h2
          · exact hsecs ex2 h2
          · simp at h2
        · simp only [hgc, if_neg hempty]
          refine ih _ _ ?_ ex
          intro ex2 hmem2
          rcases List.mem_append.mp hmem2 with h2 | h2
          · exact hsecs ex2 h2
          · simp only [List.mem_singleton, Sect.fileContent.injEq] at h2
            rw [h2.1] at hp
            rw [hp] at hgc
            injection hgc with hc
            exact hempty hc.symm
      | none =>
        simp only [hgc]
        refine ih _ pr ?_ ex
        intro ex2 hmem2
        rcases List.mem_append.mp hmem2 with h2 | h2
        · exact hsecs ex2 h2
        · simp at h2

theorem step1_not_processed (repo : Option FSEntry) (p : String)
    (hp : get_file_content repo p = some "") (fs : List String) :
    ∀ (secs : List Sect) (pr : List String), p ∉ pr →
      p ∉ (step1Explicit repo fs secs pr).2 := by
  induction fs with
  | nil => intro secs pr h; exact h
  | cons fp rest ih =>
    intro secs pr hnp
    simp only [step1Explicit]
    by_cases hmem : fp ∈ pr
    · rw [if_pos hmem]
      exact ih secs pr hnp
    · rw [if_neg hmem]
      cases hgc : get_file_content repo fp with
      | some content =>
        by_cases hempty : content = ""
        · simp only [hgc, if_pos hempty]
          exact ih _ pr hnp
        · simp only [hgc, if_neg hempty]
          refine ih _ _ ?_
          rw [mem_addProc]
          rintro (h2 | h2)
          · exact hnp h2
          · rw [h2] at hp
            rw [hp] at hgc
            injection hgc with hc
            exact hempty hc.symm
      | none =>
        simp only [hgc]
        exact ih _ pr hnp

/-- C9: an explicitly requested path that reads as the empty string takes
the falsy branch of `if content:`: the bundle carries the
"Could not be read or found" placeholder for it, the explicit step emits
no content section for it, and the path is not recorded in
files_processed, so the later priority steps may pick it up again. -/
theorem C9_empty_explicit (repo : Option FSEntry) (q p : String) (fs : List String)
    (hp : get_file_content repo p = some "") (hmem : p ∈ fs) :
    Sect.fileUnreadable p ∈ process_sections repo q (some fs) ∧
      p ∉ (step1Explicit repo fs [] []).2 ∧
      ∀ ex, Sect.fileContent p ex ∉ (step1Explicit repo fs [] []).1 := by
  refine ⟨?_, step1_not_processed repo p hp fs [] [] (by simp),
    step1_no_content repo p hp fs [] [] (by simp)⟩
  have h1 : Sect.fileUnreadable p ∈ (step1Explicit repo fs [] []).1 :=
    step1_placeholder repo p hp fs [] [] hmem (by simp)
  simp only [process_sections]
  split
  · exact List.mem_append_left _ (addFiles_mono _ _ _ _ _ (step2_mono _ _ _ h1))
  · exact addFiles_mono _ _ _ _ _ (step2_mono _ _ _ h1)

/-- A workspace holding one readable but empty file. -/
def wsC9 : FSEntry := FSEntry.dir [("empty.txt", FSEntry.file [] true)]

theorem C9_empty_explicit_witness :
    Sect.fileUnreadable "empty.txt"
        ∈ process_sections (some wsC9) "q" (some ["empty.txt"]) ∧
      "empty.txt" ∉ (step1Explicit (some wsC9) ["empty.txt"] [] []).2 ∧
      ∀ ex, Sect.fileContent "empty.txt" ex
        ∉ (step1Explicit (some wsC9) ["empty.txt"] [] []).1 :=
  C9_empty_explicit (some wsC9) "q" "empty.txt" ["empty.txt"] (by rfl) (by simp)

theorem readmeLoop_none (repo : Option FSEntry) (names : List String)
    (h : ∀ n ∈ names, get_file_content repo n = none) :
    ∀ (secs : List Sect) (pr : List String), readmeLoop repo names secs pr = (secs, pr) := by
  induction names with
  | nil => intro secs pr; rfl
  | cons name rest ih =>
    intro secs pr
    simp only [readmeLoop]
    have htail : ∀ n ∈ rest, get_file_content repo n = none :=
      fun n hn => h n (by simp [hn])
    by_cases hmem : name ∈ pr
    · rw [if_pos hmem]
      exact ih htail secs pr
    · rw [if_neg hmem]
      simp only [h name (by simp)]
      exact ih htail secs pr

theorem addFilesLoop_len (repo : Option FSEntry) (fl : List String) :
    ∀ (secs : List Sect) (pr : List String),
      (addFilesLoop repo fl secs pr).1.length ≤ secs.length + fl.length := by
  induction fl with
  | nil => intro secs pr; simp [addFilesLoop]
  | cons fp rest ih =>
    intro secs pr
    simp only [addFilesLoop]
    cases hgc : get_file_content repo fp with
    | some content =>
      by_cases hempty : content = ""
      · simp only [hgc, if_pos hempty]
        have := ih secs pr
        simp only [List.length_cons]
        omega
      · simp only [hgc, if_neg hempty]
        have := ih (secs ++ [Sect.fileContent fp (strTake content 2500)]) (addProc pr fp)
        simp only [List.length_append, List.length_singleton, List.length_cons,
          List.length_nil] at this ⊢
        omega
    | none =>
      simp only [hgc]
      have := ih secs pr
      simp only [List.length_cons]
      omega

theorem addFilesLoop_no_listing (repo : Option FSEntry) (fl : List String) :
    ∀ (secs : List Sect) (pr : List String) (ls : List String),
      Sect.structureListing ls ∉ secs →
      Sect.structureListing ls ∉ (addFilesLoop repo fl secs pr).1 := by
  induction fl with
  | nil => intro secs pr ls h; exact h
  | cons fp rest ih =>
    intro secs pr ls h
    simp only [addFilesLoop]
    cases hgc : get_file_content repo fp with
    | some content =>
      by_cases hempty : content = ""
      · simp only [hgc, if_pos hempty]
        exact ih secs pr ls h
      · simp only [hgc, if_neg hempty]
        refine ih _ _ ls ?_
        intro hmem
        rcases List.mem_append.mp hmem with h2 | h2
        · exact h h2
        · simp at h2
    | none =>
      simp only [hgc]
      exact ih secs pr ls h

/-- C6: with no explicit files (context None), no readable README variant
and no priority file present, every section of the bundle comes from the
additional-source-files loop, whose input is truncated to 10 entries, and
the flat path listing is omitted because the index holds 500 paths, which
is not below the 200-path threshold. -/
theorem C6_large_repo (repo : Option FSEntry) (q : String)
    (h500 : (get_repo_structure repo).length = 500)
    (hreadme : ∀ n ∈ readmeNames, get_file_content repo n = none)
    (hprio : ∀ pf ∈ priority_files, pf ∉ (get_repo_structure repo).map Prod.fst) :
    (process_sections repo q none).length ≤ 10 ∧
      ∀ ls, Sect.structureListing ls ∉ process_sections repo q none := by
  have hst1 : step1Explicit repo [] [] [] = ([], []) := rfl
  have hst2 : step2Readme repo ([], []) = ([], []) := by
    unfold step2Readme
    rw [if_pos (by simp)]
    exact readmeLoop_none repo readmeNames hreadme [] []
  have hcond : ¬ ((get_repo_structure repo).length < 200) := by
    rw [h500]
    omega
  constructor
  · simp only [process_sections, hst1, hst2]
    rw [if_neg hcond]
    refine le_trans (addFilesLoop_len repo _ [] []) ?_
    simp only [List.length_nil, List.length_take, Nat.zero_add]
    omega
  · intro ls
    simp only [process_sections, hst1, hst2]
    rw [if_neg hcond]
    exact addFilesLoop_no_listing repo _ [] [] ls (by simp)

theorem walkDirs_noDirs (rel : String) (canSkip : Bool) (l : List (String × FSEntry))
    (h : ∀ pr ∈ l, isDirE pr.2 = false) :
    ∀ acc, walkDirs rel acc canSkip l = acc := by
  induction l with
  | nil => intro acc; simp [walkDirs]
  | cons pr rest ih =>
    intro acc
    obtain ⟨name, e⟩ := pr
    have hd : isDirE e = false := h (name, e) (by simp)
    rw [show walkDirs rel acc canSkip ((name, e) :: rest)
          = walkDirs rel acc canSkip rest from by simp [walkDirs, hd]]
    exact ih (fun pr2 hpr2 => h pr2 (by simp [hpr2])) acc

theorem insertKV_fresh (d : StructDict) (k : String) (v : FileInfo)
    (h : k ∉ d.map Prod.fst) : insertKV d k v = d ++ [(k, v)] := by
  induction d with
  | nil => simp [insertKV]
  | cons pr rest ih =>
    obtain ⟨k', v'⟩ := pr
    simp only [List.map_cons, List.mem_cons] at h
    push_neg at h
    simp only [insertKV, if_neg (Ne.symm h.1), List.cons_append, List.cons.injEq, true_and]
    exact ih h.2

theorem addLevelFiles_flat (rel : String) (l : List (String × FSEntry))
    (hfiles : ∀ pr ∈ l, isDirE pr.2 = false)
    (hnd : (l.map fun pr => normSlash (pathJoin rel pr.1)).Nodup) :
    ∀ acc, (∀ pr ∈ l, normSlash (pathJoin rel pr.1) ∉ acc.map Prod.fst) →
      addLevelFiles rel l acc
        = acc ++ l.map (fun pr =>
            (normSlash (pathJoin rel pr.1),
              ⟨"file", normSlash (pathJoin rel pr.1)⟩)) := by
  induction l with
  | nil => intro acc _; simp [addLevelFiles]
  | cons pr rest ih =>
    intro acc hfresh
    obtain ⟨name, e⟩ := pr
    cases e with
    | dir ch =>
      have := hfiles (name, FSEntry.dir ch) (by simp)
      simp [isDirE] at this
    | file bs r =>
      simp only [addLevelFiles]
      rw [insertKV_fresh acc _ _ (hfresh (name, FSEntry.file bs r) (by simp))]
      have hndtail : (rest.map fun pr2 => normSlash (pathJoin rel pr2.1)).Nodup := by
        simp only [List.map_cons, List.nodup_cons] at hnd
        exact hnd.2
      have hhead : normSlash (pathJoin rel name)
          ∉ rest.map fun pr2 => normSlash (pathJoin rel pr2.1) := by
        simp only [List.map_cons, List.nodup_cons] at hnd
        exact hnd.1
      rw [ih (fun pr2 hpr2 => hfiles pr2 (by simp [hpr2])) hndtail _ ?_]
      · simp
      · intro pr2 hpr2
        simp only [List.map_append, List.map_cons, List.map_nil, List.mem_append,
          List.mem_singleton]
        rintro (h2 | h2)
        · exact hfresh pr2 (by simp [hpr2]) h2
        · exact hhead (h2 ▸ List.mem_map_of_mem _ hpr2)

theorem structure_flat (children : List (String × FSEntry))
    (hfiles : ∀ pr ∈ children, isDirE pr.2 = false)
    (hnd : (children.map fun pr => normSlash (pathJoin "" pr.1)).Nodup) :
    get_repo_structure (some (FSEntry.dir children))
      = children.map (fun pr =>
          (normSlash (pathJoin "" pr.1), ⟨"file", normSlash (pathJoin "" pr.1)⟩)) := by
  show walkEntry "" [] (FSEntry.dir children) = _
  rw [show walkEntry "" [] (FSEntry.dir children)
        = walkDirs "" (addLevelFiles "" children []) true children from by
      simp [walkEntry]]
  rw [walkDirs_noDirs "" true children hfiles _]
  rw [addLevelFiles_flat "" children hfiles hnd [] (by simp)]
  simp

/-- The i-th file name of the large witness workspace: i+1 letters a. -/
def repName (i : Nat) : String := String.mk (List.replicate (i + 1) 'a')

def bigChildren : List (String × FSEntry) :=
  (List.range 500).map fun i => (repName i, FSEntry.file [] true)

/-- A workspace with 500 distinct files, none of which is a README
variant or a priority file. -/
def wsC6 : FSEntry := FSEntry.dir bigChildren

theorem repName_inj : Function.Injective repName := by
  intro i j h
  have h2 : (List.replicate (i + 1) 'a').length = (List.replicate (j + 1) 'a').length := by
    rw [show List.replicate (i + 1) 'a' = (repName i).data from rfl,
      show List.replicate (j + 1) 'a' = (repName j).data from rfl, h]
  simpa using h2

theorem bigKeys_eval :
    (bigChildren.map fun pr => normSlash (pathJoin "" pr.1))
      = (List.range 500).map repName := by
  unfold bigChildren
  rw [List.map_map]
  refine List.map_congr_left ?_
  intro i _
  show normSlash (pathJoin "" (repName i)) = repName i
  have h1 : pathJoin "" (repName i) = repName i := by simp [pathJoin]
  rw [h1]
  unfold normSlash repName
  rw [show (String.mk (List.replicate (i + 1) 'a')).toList
        = List.replicate (i + 1) 'a' from rfl]
  rw [List.map_replicate]
  rfl

theorem wsC6_structure :
    get_repo_structure (some wsC6)
      = bigChildren.map (fun pr =>
          (normSlash (pathJoin "" pr.1), ⟨"file", normSlash (pathJoin "" pr.1)⟩)) := by
  refine structure_flat bigChildren ?_ ?_
  · intro pr hpr
    unfold bigChildren at hpr
    simp only [List.mem_map] at hpr
    obtain ⟨i, _, h⟩ := hpr
    rw [← h]
    rfl
  · rw [bigKeys_eval]
    exact (List.nodup_range 500).map repName_inj

theorem C6_large_repo_witness :
    (get_repo_structure (some wsC6)).length = 500 ∧
      (process_sections (some wsC6) "q" none).length ≤ 10 ∧
      ∀ ls, Sect.structureListing ls ∉ process_sections (some wsC6) "q" none := by
  have h500 : (get_repo_structure (some wsC6)).length = 500 := by
    rw [wsC6_structure]
    simp [bigChildren]
  have hreadme : ∀ n ∈ readmeNames, get_file_content (some wsC6) n = none := by
    intro n hn
    simp only [readmeNames, List.mem_cons, List.not_mem_nil, or_false] at hn
    rcases hn with rfl | rfl | rfl | rfl <;> decide
  have hprio : ∀ pf ∈ priority_files,
      pf ∉ (get_repo_structure (some wsC6)).map Prod.fst := by
    intro pf hpf
    rw [wsC6_structure, List.map_map]
    simp only [priority_files, List.mem_cons, List.not_mem_nil, or_false] at hpf
    rcases hpf with rfl | rfl | rfl | rfl | rfl | rfl | rfl | rfl | rfl | rfl <;> decide
  have main := C6_large_repo (some wsC6) "q" h500 hreadme hprio
  exact ⟨h500, main.1, main.2⟩

/-- The shared temporary root, `tempfile.gettempdir()`, modelled as a
fixed path. -/
def TEMP_DIR : String := "/tmp"

/-- Python slicing `s[n:]`. -/
def strDrop (s : String) (n : Nat) : String := String.mk (s.toList.drop n)

/-- Python `str.startswith`. -/
def strStartsWith (s pre : String) : Bool := hasPre pre.toList s.toList

/-- The group extracted by `re.search(r"/([^/]+?)(\.git)?$", repo_url)`
from the last path segment: one trailing ".git" is stripped, unless that
would leave the lazy group empty (the segment ".git" itself is kept). -/
def stripGitSuffix (seg : String) : String :=
  if strEndsWith seg ".git" && decide (4 < seg.length) then
    strTake seg (seg.length - 4)
  else seg

/-- The repository short name: the regex needs a slash followed by a
nonempty final segment reaching the end of the URL; None models the
no-match case (the code then raises a 400 error). -/
def extractRepoName (url : String) : Option String :=
  let parts := splitPath url
  if parts.length ≤ 1 then none
  else
    match parts.getLast? with
    | some seg => if seg = "" then none else some (stripGitSuffix seg)
    | none => none

/-- What the git clone primitive does in the current environment:
succeed, raise git.GitCommandError with the given message, or raise some
other exception; on failure `destAfter` records whether the destination
directory was left behind. -/
inductive CloneOutcome
  | success
  | gitError (msg : String) (destAfter : Bool)
  | otherError (msg : String) (destAfter : Bool)

/-- One recorded call of `git.Repo.clone_from(url, dest, branch, depth)`. -/
structure CloneCall where
  url : String
  dest : String
  branch : String
  depth : Nat
deriving DecidableEq

/-- The structured error raised through FastAPI. -/
structure HTTPException where
  status : Nat
  detail : String
deriving DecidableEq

/-- The world clone_repository acts on: the destination directory state
(with its rmtree oracle), what the clone primitive will do, the recorded
clone calls, and the timestamp `int(time.time())` used in the destination
name. -/
structure CloneWorld where
  dest : DirWorld
  outcome : CloneOutcome
  cloneCalls : List CloneCall
  timestamp : Nat

/-- The part of clone_repository from the access-token handling to the
end: build auth_url (token embedded after the scheme only for github.com
URLs in https or http form), perform the clone, and on failure classify
the error message, clean up the destination best-effort, and raise. -/
def cloneCore (w : CloneWorld) (repo_url repo_dir branch : String)
    (access_token : Option String) : Except HTTPException String × CloneWorld :=
  let auth_url :=
    match access_token with
    | some tok =>
      if strContains repo_url "github.com" then
        if strStartsWith repo_url "https://" then
          "https://" ++ tok ++ "@" ++ strDrop repo_url 8
        else if strStartsWith repo_url "http://" then
          "http://" ++ tok ++ "@" ++ strDrop repo_url 7
        else repo_url
      else repo_url
    | none => repo_url
  let w1 :=
    { w with cloneCalls := w.cloneCalls ++ [CloneCall.mk auth_url repo_dir branch 1] }
  match w1.outcome with
  | CloneOutcome.success =>
    (Except.ok repo_dir, { w1 with dest := { w1.dest with dirExists := true } })
  | CloneOutcome.gitError msg destAfter =>
    let error_detail :=
      "Failed to clone repository: " ++ msg ++ ". " ++
        (if strContains msg "Authentication failed" then
          "Please check your access token and repository URL."
        else if strContains msg "could not find remote branch" then
          "Please ensure the branch \x27" ++ branch ++ "\x27 exists."
        else "Check repository URL, branch name, and permissions.")
    let d := force_delete_directory { w1.dest with dirExists := destAfter } 3
    (Except.error ⟨400, error_detail⟩, { w1 with dest := d.2 })
  | CloneOutcome.otherError msg destAfter =>
    let d := force_delete_directory { w1.dest with dirExists := destAfter } 3
    (Except.error
        ⟨500, "An unexpected error occurred during repository cloning: " ++ msg⟩,
      { w1 with dest := d.2 })

/-- `clone_repository(repo_url, branch, access_token)`: extract the repo
name (400 on failure), build the timestamped destination path, reclaim a
pre-existing destination (500 when that reclaim fails), then clone. -/
def clone_repository (w : CloneWorld) (repo_url branch : String)
    (access_token : Option String) : Except HTTPException String × CloneWorld :=
  match extractRepoName repo_url with
  | none =>
    (Except.error ⟨400, "Could not determine repository name from URL."⟩, w)
  | some repo_name =>
    let repo_dir :=
      TEMP_DIR ++ "/llmrepo_" ++ repo_name ++ "_" ++ toString w.timestamp
    if w.dest.dirExists then
      let d := force_delete_directory w.dest 3
      if d.1 then cloneCore { w with dest := d.2 } repo_url repo_dir branch access_token
      else
        (Except.error ⟨500, "Failed to clean up existing directory: " ++ repo_dir⟩,
          { w with dest := d.2 })
    else cloneCore w repo_url repo_dir branch access_token

theorem hasPre_append (xs ys : List Char) : hasPre xs (xs ++ ys) = true := by
  induction xs with
  | nil => rfl
  | cons c cs ih => simp [hasPre, ih]

theorem strStartsWith_append (pre rest : String) :
    strStartsWith (pre ++ rest) pre = true := by
  unfold strStartsWith
  rw [strToList_append]
  exact hasPre_append _ _

theorem strDrop_append (pre rest : String) :
    strDrop (pre ++ rest) pre.length = rest := by
  unfold strDrop
  rw [strToList_append]
  rw [show pre.length = pre.toList.length from rfl]
  rw [List.drop_left]
  exact strMk_toList rest

theorem clone_repository_core (w : CloneWorld) (url branch nm : String)
    (tok : Option String)
    (hname : extractRepoName url = some nm)
    (hpre : w.dest.dirExists = false) :
    clone_repository w url branch tok
      = cloneCore w url (TEMP_DIR ++ "/llmrepo_" ++ nm ++ "_" ++ toString w.timestamp)
          branch tok := by
  unfold clone_repository
  rw [hname]
  simp [hpre]

/-- C4 amended: when the clone raises a GitCommandError whose message
names a missing remote branch (and not an authentication failure), the
operation raises the 400 error with the branch-not-found detail, the
destination directory state afterwards is exactly the result of running
force_delete_directory on it (the reclaimer is invoked before the error
is raised, best-effort), and whenever that reclaim succeeds the
destination no longer exists. -/
theorem C4_branch_not_found (w : CloneWorld) (url branch nm msg : String)
    (destAfter : Bool) (tok : Option String)
    (hname : extractRepoName url = some nm)
    (hpre : w.dest.dirExists = false)
    (hout : w.outcome = CloneOutcome.gitError msg destAfter)
    (hbr : strContains msg "could not find remote branch" = true)
    (hauth : strContains msg "Authentication failed" = false) :
    (clone_repository w url branch tok).1
        = Except.error ⟨400, "Failed to clone repository: " ++ msg ++ ". " ++
            ("Please ensure the branch \x27" ++ branch ++ "\x27 exists.")⟩ ∧
      (clone_repository w url branch tok).2.dest
        = (force_delete_directory { w.dest with dirExists := destAfter } 3).2 ∧
      ((force_delete_directory { w.dest with dirExists := destAfter } 3).1 = true →
        (clone_repository w url branch tok).2.dest.dirExists = false) := by
  rw [clone_repository_core w url branch nm tok hname hpre]
  unfold cloneCore
  simp only [hout, hauth, hbr, Bool.false_eq_true, if_false, if_true]
  refine ⟨by trivial, by trivial, ?_⟩
  intro h
  exact (force_delete_spec _ 3).mp h

/-- An environment where the branch is missing on the remote and the
destination directory cannot actually be deleted (every rmtree attempt
returns without raising, but the path persists, as under a host file
lock). -/
def cexCloneWorld : CloneWorld :=
  { dest := { dirExists := false, env := fun _ => ⟨false, true⟩, calls := 0 },
    outcome := CloneOutcome.gitError
      "Cmd git error: could not find remote branch dev" true,
    cloneCalls := [], timestamp := 7 }

/-- C4 counterexample: the reclaim of the destination is best-effort; in
an environment where deletion keeps failing, clone_repository raises the
branch-not-found error and the destination directory still exists
afterwards. -/
theorem C4_counterexample :
    (clone_repository cexCloneWorld "https://github.com/u/r.git" "dev" none).1
        = Except.error ⟨400,
            "Failed to clone repository: Cmd git error: could not find remote branch dev. Please ensure the branch \x27dev\x27 exists."⟩ ∧
      (clone_repository cexCloneWorld "https://github.com/u/r.git" "dev" none).2.dest.dirExists
        = true := by
  constructor
  · rfl
  · rfl

/-- A clean environment for the witnesses: destination absent, deletions
succeed, branch missing on the remote. -/
def wOkClone : CloneWorld :=
  { dest := { dirExists := false, env := fun _ => ⟨false, false⟩, calls := 0 },
    outcome := CloneOutcome.gitError
      "Cmd git error: could not find remote branch dev" false,
    cloneCalls := [], timestamp := 7 }

theorem C4_branch_not_found_witness :
    (clone_repository wOkClone "https://github.com/u/r.git" "dev" none).1
        = Except.error ⟨400, "Failed to clone repository: "
            ++ "Cmd git error: could not find remote branch dev" ++ ". " ++
            ("Please ensure the branch \x27" ++ "dev" ++ "\x27 exists.")⟩ ∧
      (clone_repository wOkClone "https://github.com/u/r.git" "dev" none).2.dest
        = (force_delete_directory { wOkClone.dest with dirExists := false } 3).2 ∧
      ((force_delete_directory { wOkClone.dest with dirExists := false } 3).1 = true →
        (clone_repository wOkClone "https://github.com/u/r.git" "dev" none).2.dest.dirExists
          = false) :=
  C4_branch_not_found wOkClone "https://github.com/u/r.git" "dev" "r"
    "Cmd git error: could not find remote branch dev" false none
    (by rfl) (by rfl) (by rfl) (by decide) (by decide)

/-- C8: the URL actually handed to git.Repo.clone_from.  With a
credential and a github.com URL in https (or http) form, the recorded URL
is the original with the token embedded immediately after the scheme;
with a URL not targeting github.com, or with no credential supplied, the
recorded URL is the original unmodified. -/
theorem C8_token_url (w : CloneWorld) (url branch tok nm : String)
    (hname : extractRepoName url = some nm)
    (hpre : w.dest.dirExists = false) :
    (∀ rest, url = "https://" ++ rest → strContains url "github.com" = true →
      (clone_repository w url branch (some tok)).2.cloneCalls
        = w.cloneCalls ++ [CloneCall.mk ("https://" ++ tok ++ "@" ++ rest)
            (TEMP_DIR ++ "/llmrepo_" ++ nm ++ "_" ++ toString w.timestamp) branch 1]) ∧
      (∀ rest, url = "http://" ++ rest → strContains url "github.com" = true →
        strStartsWith url "https://" = false →
        (clone_repository w url branch (some tok)).2.cloneCalls
          = w.cloneCalls ++ [CloneCall.mk ("http://" ++ tok ++ "@" ++ rest)
              (TEMP_DIR ++ "/llmrepo_" ++ nm ++ "_" ++ toString w.timestamp) branch 1]) ∧
      (strContains url "github.com" = false →
        (clone_repository w url branch (some tok)).2.cloneCalls
          = w.cloneCalls ++ [CloneCall.mk url
              (TEMP_DIR ++ "/llmrepo_" ++ nm ++ "_" ++ toString w.timestamp) branch 1]) ∧
      ((clone_repository w url branch none).2.cloneCalls
        = w.cloneCalls ++ [CloneCall.mk url
            (TEMP_DIR ++ "/llmrepo_" ++ nm ++ "_" ++ toString w.timestamp) branch 1]) := by
  refine ⟨?_, ?_, ?_, ?_⟩
  · intro rest hurl hgh
    subst hurl
    have hstart : strStartsWith ("https://" ++ rest) "https://" = true :=
      strStartsWith_append _ _
    have hdrop : strDrop ("https://" ++ rest) 8 = rest := by
      rw [show (8 : Nat) = ("https://" : String).length from rfl]
      exact strDrop_append _ _
    rw [clone_repository_core w _ branch nm (some tok) hname hpre]
    unfold cloneCore
    simp only [hgh, hstart, if_true, hdrop]
    cases houtc : w.outcome <;> simp [houtc]
  · intro rest hurl hgh hnotHttps
    subst hurl
    have hstart : strStartsWith ("http://" ++ rest) "http://" = true :=
      strStartsWith_append _ _
    have hdrop : strDrop ("http://" ++ rest) 7 = rest := by
      rw [show (7 : Nat) = ("http://" : String).length from rfl]
      exact strDrop_append _ _
    rw [clone_repository_core w _ branch nm (some tok) hname hpre]
    unfold cloneCore
    simp only [hgh, hnotHttps, hstart, Bool.false_eq_true, if_false, if_true, hdrop]
    cases houtc : w.outcome <;> simp [houtc]
  · intro hgh
    rw [clone_repository_core w url branch nm (some tok) hname hpre]
    unfold cloneCore
    simp only [hgh, Bool.false_eq_true, if_false]
    cases houtc : w.outcome <;> simp [houtc]
  · rw [clone_repository_core w url branch nm none hname hpre]
    unfold cloneCore
    cases houtc : w.outcome <;> simp [houtc]

/-- A clean world in which the clone succeeds. -/
def wClone : CloneWorld :=
  { dest := { dirExists := false, env := fun _ => ⟨false, false⟩, calls := 0 },
    outcome := CloneOutcome.success, cloneCalls := [], timestamp := 3 }

theorem C8_token_url_witness :
    ((clone_repository wClone "https://github.com/u/r.git" "main" (some "TOK")).2.cloneCalls
        = wClone.cloneCalls ++ [CloneCall.mk ("https://" ++ "TOK" ++ "@" ++ "github.com/u/r.git")
            (TEMP_DIR ++ "/llmrepo_" ++ "r" ++ "_" ++ toString wClone.timestamp) "main" 1]) ∧
      ((clone_repository wClone "http://github.com/u/r.git" "main" (some "TOK")).2.cloneCalls
        = wClone.cloneCalls ++ [CloneCall.mk ("http://" ++ "TOK" ++ "@" ++ "github.com/u/r.git")
            (TEMP_DIR ++ "/llmrepo_" ++ "r" ++ "_" ++ toString wClone.timestamp) "main" 1]) ∧
      ((clone_repository wClone "https://gitlab.com/u/r.git" "main" (some "TOK")).2.cloneCalls
        = wClone.cloneCalls ++ [CloneCall.mk "https://gitlab.com/u/r.git"
            (TEMP_DIR ++ "/llmrepo_" ++ "r" ++ "_" ++ toString wClone.timestamp) "main" 1]) ∧
      ((clone_repository wClone "https://github.com/u/r.git" "main" none).2.cloneCalls
        = wClone.cloneCalls ++ [CloneCall.mk "https://github.com/u/r.git"
            (TEMP_DIR ++ "/llmrepo_" ++ "r" ++ "_" ++ toString wClone.timestamp) "main" 1]) :=
  ⟨(C8_token_url wClone "https://github.com/u/r.git" "main" "TOK" "r" (by rfl) (by rfl)).1
      "github.com/u/r.git" rfl (by decide),
    (C8_token_url wClone "http://github.com/u/r.git" "main" "TOK" "r" (by rfl) (by rfl)).2.1
      "github.com/u/r.git" rfl (by decide) (by decide),
    (C8_token_url wClone "https://gitlab.com/u/r.git" "main" "TOK" "r" (by rfl) (by rfl)).2.2.1
      (by decide),
    (C8_token_url wClone "https://github.com/u/r.git" "main" "TOK" "r" (by rfl) (by rfl)).2.2.2⟩

end LLMRepo

